import Mathlib

/-!
Verification of the frame-cache and key-formatting core of
`src/native/ffreader/src/FrameUtils.hpp` (crewtimer/crewtimer-connect).

Modelling choices, shared by all definitions below:

* C++ `std::string` is modelled as `List Char` (the type `Key`).
* The C++ `float frameNum` is formatted with `std::fixed` and
  `std::setprecision(6)`, i.e. at 6-decimal granularity.  We model a frame
  number as an integer count of micro-frames `m : ℤ` standing for the real
  value `m / 10^6`; `fixed6 m` is exactly the string `%.6f` produces for
  that value (sign, integer part, '.', six zero-padded fractional digits).
* `std::shared_ptr<T>` becomes `Option T` where nullability matters
  (`nullptr` = `none`); a dereferenced shared pointer is just a value.
  Descriptor identity ("the same pointer, not a copy") is modelled by the
  abstract payload tag `data : ℕ`, which lets two descriptors with equal
  keys be distinguished.
* The mutable `std::list` of `FrameInfoList` becomes a `List FrameInfo`
  passed explicitly; a C++ method becomes a function from the list (and
  arguments) to result and/or new list.
-/

/-- A cache / descriptor key: the C++ `std::string`. -/
abbrev Key : Type := List Char

/-- Numeric value of a decimal digit character (`c - '0'` in C). -/
def digitVal (c : Char) : ℕ := c.toNat - 48

/-- Value of a big-endian string of decimal digit characters. -/
def charsVal (cs : List Char) : ℕ := cs.foldl (fun a c => 10 * a + digitVal c) 0

/-- Little-endian decimal digits of `n`, computed with explicit fuel so the
kernel can evaluate it (`[]` for `n = 0`). -/
def digitsRev (fuel n : ℕ) : List ℕ :=
  match fuel with
  | 0 => []
  | fuel + 1 => if n = 0 then [] else n % 10 :: digitsRev fuel (n / 10)

/-- Little-endian decimal digits of `n` (equal to `Nat.digits 10 n`, see
`natDigits_eq`, but evaluable by the kernel). -/
def natDigits (n : ℕ) : List ℕ := digitsRev n n

/-- Big-endian decimal digits of `n`, as characters (no sign, no padding):
what `operator<<` prints for a non-negative integer part. -/
def natChars (n : ℕ) : List Char :=
  if n = 0 then ['0'] else ((natDigits n).map Nat.digitChar).reverse

/-- The six fractional digits printed by `std::setprecision(6)` with
`std::fixed`: the value `r < 10^6`, zero-padded on the left to width 6. -/
def pad6 (r : ℕ) : List Char :=
  List.replicate (6 - (natDigits r).length) '0' ++
    ((natDigits r).map Nat.digitChar).reverse

/-- `%.6f` rendering of the frame number `m` (in micro-frame units,
standing for the value `m / 10^6`): optional minus sign, integer part,
a dot, and six fractional digits.  This is what
`oss << std::fixed << std::setprecision(6) << frameNum` writes. -/
def fixed6 (m : ℤ) : List Char :=
  (if m < 0 then ['-'] else []) ++
    natChars (m.natAbs / 1000000) ++ ['.'] ++ pad6 (m.natAbs % 1000000)

/-- Embedding of the C++ `formatKey(file, frameNum, hasZoom)`:
`file << "-" << fixed-6-decimal frameNum << (hasZoom ? "-z" : "")`.
`frameNum` is given in micro-frame units (see `fixed6`). -/
def formatKey (file : Key) (frameNum : ℤ) (hasZoom : Bool) : Key :=
  file ++ ['-'] ++ fixed6 frameNum ++ (if hasZoom then ['-', 'z'] else [])

/-- Embedding of the C++ `FrameInfo` class, keeping the fields the claims
depend on: the frame number (micro-frame units), the source file, the
stored `key`, and an abstract payload tag `data` standing for the identity
of the pixel buffer (two descriptors with the same key but different
buffers have different `data`). -/
structure FrameInfo where
  frameNum : ℤ
  file : Key
  key : Key
  data : ℕ
deriving DecidableEq

/-- Embedding of the C++ constructor `FrameInfo(int frameNum, file)`:
it stores the integer frame number (an integer `n` is `10^6 * n`
micro-frames) and computes `key = formatKey(file, frameNum, false)`. -/
def FrameInfo.construct (n : ℤ) (file : Key) : FrameInfo :=
  { frameNum := 1000000 * n
    file := file
    key := formatKey file (1000000 * n) false
    data := 0 }

/-- The C++ `FrameInfoList::maxSize` constant. -/
def maxSize : ℕ := 32

/-- Embedding of `FrameInfoList::addFrame`: if an entry with the same key
exists, erase (the first) such entry; otherwise, if the list holds at least
`maxSize` entries, pop the back; finally push the new frame at the front.
The C++ `frameList` is the explicit argument `l` (front = head). -/
def addFrame (frame : FrameInfo) (l : List FrameInfo) : List FrameInfo :=
  if l.any (fun f => f.key == frame.key) then
    frame :: l.eraseP (fun f => f.key == frame.key)
  else if maxSize ≤ l.length then
    frame :: l.dropLast
  else
    frame :: l

/-- Embedding of `FrameInfoList::getFrame`: returns the first entry whose
key matches (or `none` for the C++ `nullptr`), together with the resulting
cache state.  The C++ body only reads `frameList`, so the state component
is the input list itself. -/
def getFrame (l : List FrameInfo) (k : Key) : Option FrameInfo × List FrameInfo :=
  (l.find? (fun f => f.key == k), l)

/-- Run a sequence of `addFrame` operations from a given starting state. -/
def runAdds (l : List FrameInfo) (ops : List FrameInfo) : List FrameInfo :=
  ops.foldl (fun s f => addFrame f s) l

/-- Cache states reachable from the empty cache by `addFrame` operations
(`getFrame` does not change the state, see `getFrame`). -/
def Reachable (l : List FrameInfo) : Prop :=
  ∃ ops : List FrameInfo, runAdds [] ops = l

/-- The keys of the cache entries, in recency order. -/
def cacheKeys (l : List FrameInfo) : List Key := l.map (fun f => f.key)

/-- Repeated lookups, threaded through the cache state. -/
def runLookups (l : List FrameInfo) (ks : List Key) : List FrameInfo :=
  ks.foldl (fun s k => (getFrame s k).2) l

/-- Sample descriptor used as a concrete input. -/
def sampleFrame : FrameInfo := FrameInfo.construct 1 ['a']

/-- A second descriptor with the same key as `sampleFrame` but a different
payload (a distinct buffer holding updated pixels for the same identity). -/
def sampleDup : FrameInfo :=
  { frameNum := 1000000
    file := ['a']
    key := formatKey ['a'] 1000000 false
    data := 5 }

/-- A concrete full cache: 32 descriptors with pairwise distinct keys. -/
def sampleCache : List FrameInfo :=
  (List.range 32).map (fun i => FrameInfo.construct (i : ℤ) ['f'])

/-- A descriptor whose key is not in `sampleCache`. -/
def sampleNew : FrameInfo := FrameInfo.construct 99 ['f']

/-- Embedding of the C++ `FrameRect` (region of interest). -/
structure FrameRect where
  x : ℤ
  y : ℤ
  width : ℤ
  height : ℤ
deriving DecidableEq

/-- Embedding of the C++ `ImageMotion` (`double x, y; uint64_t dt; bool
valid`); the doubles become rationals. -/
structure ImageMotion where
  x : ℚ
  y : ℚ
  dt : ℕ
  valid : Bool
deriving DecidableEq

/-- Embedding of the C++ `InterpResult`: the pair of shared pointers
`{blendedFrame, shiftedFrame}` becomes a pair of options. -/
structure InterpResult where
  blendedFrame : Option FrameInfo
  shiftedFrame : Option FrameInfo
deriving DecidableEq

/-- Modelled from the spec: the body of `generateInterpolatedFrame` is not
in the repository sources (the header only declares it).  Following §4.3
and §6 of the spec: the result pair holds a shifted frame (always) and a
blended frame exactly when `blend` is true; each output inherits
`frameA`'s source identity, carries the interpolated fractional frame
number, and recomputes its key from `(sourceId, frameNumber, zoom=false)`.
`pctAtoB` is a rational in `[0,1]`; frame numbers are micro-frame units,
so the interpolated position is rounded to the 6-decimal grid. -/
def generateInterpolatedFrame (frameA frameB : FrameInfo) (pctAtoB : ℚ)
    (roi : FrameRect) (blend : Bool) : InterpResult :=
  let fn : ℤ := frameA.frameNum +
    ⌊pctAtoB * ((frameB.frameNum : ℚ) - (frameA.frameNum : ℚ))⌋
  let mkOut : ℕ → FrameInfo := fun tag =>
    { frameNum := fn
      file := frameA.file
      key := formatKey frameA.file fn false
      data := tag }
  { blendedFrame := if blend then some (mkOut 1) else none
    shiftedFrame := some (mkOut 0) }

/-! ### Digit-string lemmas -/

theorem digitsRev_eq {fuel n : ℕ} (h : n ≤ fuel) :
    digitsRev fuel n = Nat.digits 10 n := by
  induction fuel generalizing n with
  | zero =>
    have hn : n = 0 := by omega
    subst hn
    simp [digitsRev]
  | succ fuel ih =>
    unfold digitsRev
    by_cases hn : n = 0
    · subst hn
      simp
    · rw [if_neg hn, Nat.digits_def' (by norm_num : (1 : ℕ) < 10) (by omega),
        ih (by omega)]

theorem natDigits_eq (n : ℕ) : natDigits n = Nat.digits 10 n :=
  digitsRev_eq le_rfl

/-- A decimal digit character: `'0'` through `'9'`. -/
def IsDigitC (c : Char) : Prop := 48 ≤ c.toNat ∧ c.toNat ≤ 57

instance (c : Char) : Decidable (IsDigitC c) := by
  unfold IsDigitC
  infer_instance

theorem isDigitC_digitChar {d : ℕ} (hd : d < 10) : IsDigitC (Nat.digitChar d) := by
  interval_cases d <;> decide

theorem digitVal_digitChar {d : ℕ} (hd : d < 10) : digitVal (Nat.digitChar d) = d := by
  interval_cases d <;> decide

theorem isDigitC_ne_dash {c : Char} (h : IsDigitC c) : c ≠ '-' := by
  rintro rfl
  revert h
  decide

theorem isDigitC_ne_dot {c : Char} (h : IsDigitC c) : c ≠ '.' := by
  rintro rfl
  revert h
  decide

theorem isDigitC_ne_z {c : Char} (h : IsDigitC c) : c ≠ 'z' := by
  rintro rfl
  revert h
  decide

theorem isDigitC_of_mem_natChars {n : ℕ} {c : Char} (h : c ∈ natChars n) :
    IsDigitC c := by
  unfold natChars at h
  rw [natDigits_eq] at h
  split at h
  · simp only [List.mem_singleton] at h
    subst h
    decide
  · rw [List.mem_reverse, List.mem_map] at h
    obtain ⟨d, hd, rfl⟩ := h
    exact isDigitC_digitChar (Nat.digits_lt_base (by norm_num) hd)

theorem isDigitC_of_mem_pad6 {r : ℕ} {c : Char} (h : c ∈ pad6 r) : IsDigitC c := by
  unfold pad6 at h
  rw [natDigits_eq, List.mem_append] at h
  rcases h with h | h
  · rw [List.mem_replicate] at h
    rw [h.2]
    decide
  · rw [List.mem_reverse, List.mem_map] at h
    obtain ⟨d, hd, rfl⟩ := h
    exact isDigitC_digitChar (Nat.digits_lt_base (by norm_num) hd)

theorem charsVal_go (a : ℕ) (cs : List Char) :
    cs.foldl (fun a c => 10 * a + digitVal c) a = a * 10 ^ cs.length + charsVal cs := by
  induction cs generalizing a with
  | nil => simp [charsVal]
  | cons c cs ih =>
    have hc : charsVal (c :: cs) = digitVal c * 10 ^ cs.length + charsVal cs := by
      have h0 := ih (10 * 0 + digitVal c)
      simpa [charsVal] using h0
    rw [List.foldl_cons, ih, hc, List.length_cons]
    ring

theorem charsVal_append (A B : List Char) :
    charsVal (A ++ B) = charsVal A * 10 ^ B.length + charsVal B := by
  unfold charsVal
  rw [List.foldl_append]
  rw [charsVal_go (List.foldl (fun a c => 10 * a + digitVal c) 0 A) B]
  rfl

theorem charsVal_replicate_zero (k : ℕ) : charsVal (List.replicate k '0') = 0 := by
  induction k with
  | zero => rfl
  | succ k ih =>
    unfold charsVal at ih ⊢
    rw [List.replicate_succ, List.foldl_cons]
    simpa using ih

theorem charsVal_rev_map (L : List ℕ) (hL : ∀ d ∈ L, d < 10) :
    charsVal ((L.map Nat.digitChar).reverse) = Nat.ofDigits 10 L := by
  induction L with
  | nil => rfl
  | cons d L ih =>
    rw [List.map_cons, List.reverse_cons, charsVal_append,
      ih (fun x hx => hL x (List.mem_cons_of_mem d hx)), Nat.ofDigits_cons]
    have h1 : charsVal [Nat.digitChar d] = d := by
      show 10 * 0 + digitVal (Nat.digitChar d) = d
      rw [digitVal_digitChar (hL d (List.mem_cons_self d L))]
      omega
    rw [h1]
    simp only [List.length_singleton, pow_one]
    ring

theorem charsVal_natChars (n : ℕ) : charsVal (natChars n) = n := by
  unfold natChars
  rw [natDigits_eq]
  split
  · subst ‹n = 0›
    rfl
  · rw [charsVal_rev_map _ (fun d hd => Nat.digits_lt_base (by norm_num) hd),
      Nat.ofDigits_digits]

theorem charsVal_pad6 (r : ℕ) : charsVal (pad6 r) = r := by
  unfold pad6
  rw [natDigits_eq, charsVal_append, charsVal_replicate_zero,
    charsVal_rev_map _ (fun d hd => Nat.digits_lt_base (by norm_num) hd),
    Nat.ofDigits_digits]
  ring

theorem digits_len_le_six {r : ℕ} (hr : r < 1000000) :
    (Nat.digits 10 r).length ≤ 6 := by
  by_contra hlen
  push_neg at hlen
  rcases Nat.eq_zero_or_pos r with rfl | hpos
  · simp at hlen
  · have h1 : (10 : ℕ) ^ (Nat.digits 10 r).length ≤ 10 * r :=
      Nat.base_pow_length_digits_le 10 r (by norm_num) (by omega)
    have h2 : (10 : ℕ) ^ 7 ≤ 10 ^ (Nat.digits 10 r).length :=
      Nat.pow_le_pow_right (by norm_num) hlen
    omega

theorem length_pad6 {r : ℕ} (hr : r < 1000000) : (pad6 r).length = 6 := by
  unfold pad6
  rw [natDigits_eq, List.length_append, List.length_replicate, List.length_reverse,
    List.length_map]
  have h := digits_len_le_six hr
  omega

theorem pad6_ne_nil {r : ℕ} (hr : r < 1000000) : pad6 r ≠ [] := by
  intro h
  have := length_pad6 hr
  rw [h] at this
  simp at this

/-- Splitting a character list at the first occurrence of a separator that
occurs in neither prefix is unambiguous. -/
theorem split_at_sep {c : Char} :
    ∀ (A1 A2 T1 T2 : List Char), c ∉ A1 → c ∉ A2 →
      A1 ++ c :: T1 = A2 ++ c :: T2 → A1 = A2 ∧ T1 = T2 := by
  intro A1
  induction A1 with
  | nil =>
    intro A2 T1 T2 _ hA2 h
    cases A2 with
    | nil =>
      simp only [List.nil_append, List.cons.injEq] at h
      exact ⟨rfl, h.2⟩
    | cons a A2 =>
      simp only [List.nil_append, List.cons_append, List.cons.injEq] at h
      exact absurd (h.1 ▸ List.mem_cons_self a A2) hA2
  | cons a A1 ih =>
    intro A2 T1 T2 hA1 hA2 h
    cases A2 with
    | nil =>
      simp only [List.cons_append, List.nil_append, List.cons.injEq] at h
      exact absurd (h.1 ▸ List.mem_cons_self a A1) hA1
    | cons b A2 =>
      simp only [List.cons_append, List.cons.injEq] at h
      obtain ⟨rfl, h2⟩ := h
      have hrec := ih A2 T1 T2 (fun hc => hA1 (List.mem_cons_of_mem a hc))
        (fun hc => hA2 (List.mem_cons_of_mem a hc)) h2
      exact ⟨by rw [hrec.1], hrec.2⟩

theorem dash_not_mem_natChars (n : ℕ) : '-' ∉ natChars n := fun h =>
  isDigitC_ne_dash (isDigitC_of_mem_natChars h) rfl

theorem dash_not_mem_pad6 (r : ℕ) : '-' ∉ pad6 r := fun h =>
  isDigitC_ne_dash (isDigitC_of_mem_pad6 h) rfl

theorem dot_not_mem_natChars (n : ℕ) : '.' ∉ natChars n := fun h =>
  isDigitC_ne_dot (isDigitC_of_mem_natChars h) rfl

theorem natChars_inj {n1 n2 : ℕ} (h : natChars n1 = natChars n2) : n1 = n2 := by
  rw [← charsVal_natChars n1, ← charsVal_natChars n2, h]

theorem pad6_inj {r1 r2 : ℕ} (h : pad6 r1 = pad6 r2) : r1 = r2 := by
  rw [← charsVal_pad6 r1, ← charsVal_pad6 r2, h]


theorem pad6_rev_cons (r : ℕ) (hr : r < 1000000) :
    ∃ c cs, (pad6 r).reverse = c :: cs ∧ IsDigitC c := by
  have hne : (pad6 r).reverse ≠ [] := by
    intro h
    exact pad6_ne_nil hr (List.reverse_eq_nil_iff.mp h)
  obtain ⟨c, cs, hcs⟩ := List.exists_cons_of_ne_nil hne
  have hmem : c ∈ pad6 r := by
    rw [← List.mem_reverse, hcs]
    exact List.mem_cons_self c cs
  exact ⟨c, cs, hcs, isDigitC_of_mem_pad6 hmem⟩

theorem formatKey_reverse_nonneg (f : Key) (m : ℤ) (z : Bool) (h : 0 ≤ m) :
    (formatKey f m z).reverse =
      (if z then ['z', '-'] else []) ++
        ((pad6 (m.natAbs % 1000000)).reverse ++
          ('.' :: ((natChars (m.natAbs / 1000000)).reverse ++ ('-' :: f.reverse)))) := by
  unfold formatKey fixed6
  rw [if_neg (not_lt.2 h)]
  cases z <;> simp [List.reverse_append]

/-- Injectivity of `formatKey` for non-negative frame numbers: the file,
the frame number (at 6-decimal granularity) and the zoom flag are all
recoverable from the key. -/
theorem formatKey_inj_nonneg {f1 f2 : Key} {m1 m2 : ℤ} {z1 z2 : Bool}
    (h1 : 0 ≤ m1) (h2 : 0 ≤ m2)
    (h : formatKey f1 m1 z1 = formatKey f2 m2 z2) :
    f1 = f2 ∧ m1 = m2 ∧ z1 = z2 := by
  have hrev := congrArg List.reverse h
  rw [formatKey_reverse_nonneg f1 m1 z1 h1, formatKey_reverse_nonneg f2 m2 z2 h2]
    at hrev
  have hr1 : m1.natAbs % 1000000 < 1000000 := Nat.mod_lt _ (by norm_num)
  have hr2 : m2.natAbs % 1000000 < 1000000 := Nat.mod_lt _ (by norm_num)
  obtain ⟨c1, cs1, e1, hd1⟩ := pad6_rev_cons _ hr1
  obtain ⟨c2, cs2, e2, hd2⟩ := pad6_rev_cons _ hr2
  have hz : z1 = z2 := by
    cases z1 <;> cases z2
    · rfl
    · exfalso
      rw [e1] at hrev
      have hh := congrArg List.head? hrev
      simp at hh
      exact isDigitC_ne_z hd1 hh
    · exfalso
      rw [e2] at hrev
      have hh := congrArg List.head? hrev
      simp at hh
      exact isDigitC_ne_z hd2 hh.symm
    · rfl
  subst hz
  have hcore : (pad6 (m1.natAbs % 1000000)).reverse ++
        ('.' :: ((natChars (m1.natAbs / 1000000)).reverse ++ ('-' :: f1.reverse)))
      = (pad6 (m2.natAbs % 1000000)).reverse ++
        ('.' :: ((natChars (m2.natAbs / 1000000)).reverse ++ ('-' :: f2.reverse))) := by
    cases z1 <;> simpa using hrev
  have hdot1 : '.' ∉ (pad6 (m1.natAbs % 1000000)).reverse := by
    rw [List.mem_reverse]
    intro hmem
    exact isDigitC_ne_dot (isDigitC_of_mem_pad6 hmem) rfl
  have hdot2 : '.' ∉ (pad6 (m2.natAbs % 1000000)).reverse := by
    rw [List.mem_reverse]
    intro hmem
    exact isDigitC_ne_dot (isDigitC_of_mem_pad6 hmem) rfl
  obtain ⟨hpad, hrest⟩ := split_at_sep _ _ _ _ hdot1 hdot2 hcore
  have hdash1 : '-' ∉ (natChars (m1.natAbs / 1000000)).reverse := by
    rw [List.mem_reverse]
    exact dash_not_mem_natChars _
  have hdash2 : '-' ∉ (natChars (m2.natAbs / 1000000)).reverse := by
    rw [List.mem_reverse]
    exact dash_not_mem_natChars _
  obtain ⟨hnat, hfile⟩ := split_at_sep _ _ _ _ hdash1 hdash2 hrest
  have hq : m1.natAbs / 1000000 = m2.natAbs / 1000000 :=
    natChars_inj (List.reverse_inj.mp hnat)
  have hr : m1.natAbs % 1000000 = m2.natAbs % 1000000 :=
    pad6_inj (List.reverse_inj.mp hpad)
  have habs : m1.natAbs = m2.natAbs := by
    have d1 := Nat.div_add_mod m1.natAbs 1000000
    have d2 := Nat.div_add_mod m2.natAbs 1000000
    omega
  refine ⟨List.reverse_inj.mp hfile, ?_, rfl⟩
  rw [← Int.natAbs_of_nonneg h1, ← Int.natAbs_of_nonneg h2, habs]

/-! ### Cache lemmas -/

theorem any_key_eq_true_iff (f : FrameInfo) (l : List FrameInfo) :
    (l.any (fun g => g.key == f.key) = true) ↔ f.key ∈ cacheKeys l := by
  rw [List.any_eq_true]
  unfold cacheKeys
  rw [List.mem_map]
  constructor
  · rintro ⟨g, hg, hk⟩
    exact ⟨g, hg, (beq_iff_eq.mp hk)⟩
  · rintro ⟨g, hg, hk⟩
    exact ⟨g, hg, beq_iff_eq.mpr hk⟩

theorem addFrame_of_mem {f : FrameInfo} {l : List FrameInfo}
    (h : f.key ∈ cacheKeys l) :
    addFrame f l = f :: l.eraseP (fun g => g.key == f.key) := by
  unfold addFrame
  rw [if_pos ((any_key_eq_true_iff f l).mpr h)]

theorem addFrame_of_not_mem_full {f : FrameInfo} {l : List FrameInfo}
    (h : f.key ∉ cacheKeys l) (hlen : maxSize ≤ l.length) :
    addFrame f l = f :: l.dropLast := by
  unfold addFrame
  rw [if_neg, if_pos hlen]
  intro hany
  exact h ((any_key_eq_true_iff f l).mp hany)

theorem addFrame_of_not_mem_small {f : FrameInfo} {l : List FrameInfo}
    (h : f.key ∉ cacheKeys l) (hlen : l.length < maxSize) :
    addFrame f l = f :: l := by
  unfold addFrame
  rw [if_neg, if_neg (by omega)]
  intro hany
  exact h ((any_key_eq_true_iff f l).mp hany)

theorem addFrame_length_le {f : FrameInfo} {l : List FrameInfo}
    (h : l.length ≤ maxSize) : (addFrame f l).length ≤ maxSize := by
  by_cases hmem : f.key ∈ cacheKeys l
  · rw [addFrame_of_mem hmem, List.length_cons]
    obtain ⟨g, hg, hk⟩ := List.mem_map.mp hmem
    have hlen : (l.eraseP (fun g => g.key == f.key)).length = l.length - 1 :=
      List.length_eraseP_of_mem hg (by simp [hk])
    have hpos : 1 ≤ l.length := List.length_pos.mpr (List.ne_nil_of_mem hg)
    omega
  · by_cases hfull : maxSize ≤ l.length
    · rw [addFrame_of_not_mem_full hmem hfull, List.length_cons,
        List.length_dropLast]
      unfold maxSize at h hfull ⊢
      omega
    · rw [addFrame_of_not_mem_small hmem (by omega), List.length_cons]
      omega

theorem runAdds_length_le {l : List FrameInfo} (ops : List FrameInfo)
    (h : l.length ≤ maxSize) : (runAdds l ops).length ≤ maxSize := by
  induction ops generalizing l with
  | nil => exact h
  | cons f ops ih =>
    show (runAdds (addFrame f l) ops).length ≤ maxSize
    exact ih (addFrame_length_le h)

theorem not_mem_eraseP_key {k : Key} (L : List Key) (h : L.Nodup) :
    k ∉ L.eraseP (fun x => x == k) := by
  induction L with
  | nil => simp
  | cons a L ih =>
    rw [List.eraseP_cons]
    by_cases ha : a = k
    · subst ha
      simp only [beq_self_eq_true, cond_true]
      exact (List.nodup_cons.mp h).1
    · have hb : (a == k) = false := by simp [ha]
      simp only [hb, cond_false]
      intro hmem
      rcases List.mem_cons.mp hmem with heq | hmem
      · exact ha heq.symm
      · exact ih (List.nodup_cons.mp h).2 hmem

theorem cacheKeys_eraseP (f : FrameInfo) (l : List FrameInfo) :
    cacheKeys (l.eraseP (fun g => g.key == f.key)) =
      (cacheKeys l).eraseP (fun x => x == f.key) := by
  unfold cacheKeys
  induction l with
  | nil => rfl
  | cons a l ih =>
    rw [List.eraseP_cons, List.map_cons, List.eraseP_cons]
    by_cases ha : a.key = f.key
    · simp only [ha, beq_self_eq_true, cond_true]
    · have hb : (a.key == f.key) = false := by simp [ha]
      simp only [hb, cond_false, List.map_cons, ih]

theorem addFrame_nodup_keys {f : FrameInfo} {l : List FrameInfo}
    (h : (cacheKeys l).Nodup) : (cacheKeys (addFrame f l)).Nodup := by
  by_cases hmem : f.key ∈ cacheKeys l
  · rw [addFrame_of_mem hmem]
    show (f.key :: cacheKeys (l.eraseP (fun g => g.key == f.key))).Nodup
    rw [List.nodup_cons, cacheKeys_eraseP]
    exact ⟨not_mem_eraseP_key _ h, ((List.eraseP_sublist _).nodup h)⟩
  · by_cases hfull : maxSize ≤ l.length
    · rw [addFrame_of_not_mem_full hmem hfull]
      show (f.key :: cacheKeys l.dropLast).Nodup
      rw [List.nodup_cons]
      unfold cacheKeys
      rw [List.map_dropLast]
      refine ⟨?_, (List.dropLast_sublist _).nodup h⟩
      intro hmemd
      exact hmem ((List.dropLast_sublist (cacheKeys l)).mem hmemd)
    · rw [addFrame_of_not_mem_small hmem (by omega)]
      show (f.key :: cacheKeys l).Nodup
      exact List.nodup_cons.mpr ⟨hmem, h⟩

theorem runAdds_nodup_keys {l : List FrameInfo} (ops : List FrameInfo)
    (h : (cacheKeys l).Nodup) : (cacheKeys (runAdds l ops)).Nodup := by
  induction ops generalizing l with
  | nil => exact h
  | cons f ops ih =>
    show (cacheKeys (runAdds (addFrame f l) ops)).Nodup
    exact ih (addFrame_nodup_keys h)

theorem reachable_nodup_keys {l : List FrameInfo} (h : Reachable l) :
    (cacheKeys l).Nodup := by
  obtain ⟨ops, rfl⟩ := h
  exact runAdds_nodup_keys ops List.nodup_nil

theorem runLookups_eq (l : List FrameInfo) (ks : List Key) :
    runLookups l ks = l := by
  induction ks with
  | nil => rfl
  | cons k ks ih => exact ih

theorem addFrame_cons (f : FrameInfo) (l : List FrameInfo) :
    ∃ t, addFrame f l = f :: t := by
  unfold addFrame
  split
  · exact ⟨_, rfl⟩
  · split
    · exact ⟨_, rfl⟩
    · exact ⟨_, rfl⟩

theorem formatKey_getLast_true (f : Key) (m : ℤ) :
    (formatKey f m true).getLast? = some 'z' := by
  unfold formatKey
  rw [if_pos rfl, List.getLast?_append]
  rfl

theorem formatKey_getLast_false (f : Key) (m : ℤ) :
    ∃ c, IsDigitC c ∧ (formatKey f m false).getLast? = some c := by
  obtain ⟨c, cs, e, hd⟩ :=
    pad6_rev_cons (m.natAbs % 1000000) (Nat.mod_lt _ (by norm_num))
  refine ⟨c, hd, ?_⟩
  have hp : (pad6 (m.natAbs % 1000000)).getLast? = some c := by
    rw [← List.head?_reverse, e]
    rfl
  unfold formatKey fixed6
  rw [if_neg Bool.false_ne_true, List.append_nil, List.getLast?_append,
    List.getLast?_append, hp]
  rfl

/-! ### Claim theorems -/

/-- C1: starting from the empty cache, any sequence of `addFrame`
operations leaves at most 32 entries in the Frame Cache. -/
theorem C1_size_never_exceeds_capacity (ops : List FrameInfo) :
    (runAdds [] ops).length ≤ 32 := by
  have h := runAdds_length_le (l := []) ops (by simp)
  unfold maxSize at h
  exact h

/-- C2: on a reachable cache state, inserting a frame whose key is already
present first removes the existing entry with that key, places the new
frame at the front (most-recently-used), does not increase the size, and
both the state and its successor hold at most one entry per distinct key. -/
theorem C2_insert_existing_key (l : List FrameInfo) (f : FrameInfo)
    (hreach : Reachable l) (hmem : f.key ∈ cacheKeys l) :
    addFrame f l = f :: l.eraseP (fun g => g.key == f.key) ∧
    (addFrame f l).length ≤ l.length ∧
    (addFrame f l).head? = some f ∧
    (cacheKeys l).Nodup ∧ (cacheKeys (addFrame f l)).Nodup := by
  have hnd := reachable_nodup_keys hreach
  have he := addFrame_of_mem hmem
  refine ⟨he, ?_, ?_, hnd, addFrame_nodup_keys hnd⟩
  · rw [he, List.length_cons]
    obtain ⟨g, hg, hk⟩ := List.mem_map.mp hmem
    have hlen : (l.eraseP (fun g => g.key == f.key)).length = l.length - 1 :=
      List.length_eraseP_of_mem hg (by simp [hk])
    have hpos : 1 ≤ l.length := List.length_pos.mpr (List.ne_nil_of_mem hg)
    omega
  · rw [he]
    rfl

/-- Witness for C2 at a concrete reachable one-entry cache and a duplicate
descriptor with the same key. -/
theorem C2_insert_existing_key_witness :
    Reachable [sampleFrame] ∧ sampleDup.key ∈ cacheKeys [sampleFrame] ∧
    (addFrame sampleDup [sampleFrame] =
        sampleDup :: ([sampleFrame] : List FrameInfo).eraseP
          (fun g => g.key == sampleDup.key) ∧
      (addFrame sampleDup [sampleFrame]).length ≤
        ([sampleFrame] : List FrameInfo).length ∧
      (addFrame sampleDup [sampleFrame]).head? = some sampleDup ∧
      (cacheKeys [sampleFrame]).Nodup ∧
      (cacheKeys (addFrame sampleDup [sampleFrame])).Nodup) :=
  ⟨⟨[sampleFrame], by decide⟩, by decide,
    C2_insert_existing_key [sampleFrame] sampleDup ⟨[sampleFrame], by decide⟩
      (by decide)⟩

/-- C3: on a cache of exactly 32 entries none of which has the new frame's
key, any number of intervening `getFrame` calls leaves the state unchanged,
and `addFrame` then evicts exactly the back (least-recently-inserted)
entry: the new state is the new frame consed onto the old state minus its
last element. -/
theorem C3_full_insert_evicts_back (l : List FrameInfo) (f : FrameInfo)
    (ks : List Key) (hlen : l.length = 32)
    (habs : ∀ g ∈ l, g.key ≠ f.key) :
    runLookups l ks = l ∧
    addFrame f (runLookups l ks) = f :: l.dropLast := by
  have hrl : runLookups l ks = l := runLookups_eq l ks
  refine ⟨hrl, ?_⟩
  rw [hrl]
  apply addFrame_of_not_mem_full
  · intro hmem
    obtain ⟨g, hg, hk⟩ := List.mem_map.mp hmem
    exact habs g hg hk
  · rw [hlen]
    exact le_rfl

/-- Witness for C3 at a concrete full cache of 32 distinct keys, a fresh
frame, and one intervening lookup. -/
theorem C3_full_insert_evicts_back_witness :
    sampleCache.length = 32 ∧ (∀ g ∈ sampleCache, g.key ≠ sampleNew.key) ∧
    (runLookups sampleCache [sampleNew.key] = sampleCache ∧
      addFrame sampleNew (runLookups sampleCache [sampleNew.key]) =
        sampleNew :: sampleCache.dropLast) :=
  ⟨by decide, by decide,
    C3_full_insert_evicts_back sampleCache sampleNew [sampleNew.key]
      (by decide) (by decide)⟩

/-- C4: for every pair of input frames, `generateInterpolatedFrame`
returns a result pair; with `blend = false` the blended result is absent
and the shifted result present, with `blend = true` both are present
(modelled from the spec, see `generateInterpolatedFrame`). -/
theorem C4_interp_result_shape (frameA frameB : FrameInfo) (pct : ℚ)
    (roi : FrameRect) :
    ((generateInterpolatedFrame frameA frameB pct roi false).blendedFrame
        = none ∧
      (generateInterpolatedFrame frameA frameB pct roi false).shiftedFrame
        ≠ none) ∧
    ((generateInterpolatedFrame frameA frameB pct roi true).blendedFrame
        ≠ none ∧
      (generateInterpolatedFrame frameA frameB pct roi true).shiftedFrame
        ≠ none) := by
  simp [generateInterpolatedFrame]

/-- C5 (counterexample): two triples with different files (and frame
numbers two whole frames apart, far more than one micro-frame) produce the
same key — the minus sign of a negative frame number merges with the
separator, so `formatKey` as used by the code is not injective over the
full triple. -/
theorem C5_formatKey_collision :
    formatKey ['a'] (-1000000) false = formatKey ['a', '-'] 1000000 false ∧
    (['a'] : Key) ≠ ['a', '-'] ∧
    (1000000 : ℤ) - (-1000000) ≥ 1 := by
  refine ⟨by decide, by decide, by decide⟩

/-- C5 (amended): `formatKey` is injective over `(file, frameNumber,
hasZoom)` at 6-decimal precision provided the frame numbers are
non-negative (frame numbers are measured in micro-frames, so distinct
integers here are values at least 1e-6 apart). -/
theorem C5_formatKey_inj_nonneg (f1 f2 : Key) (m1 m2 : ℤ) (z1 z2 : Bool)
    (h1 : 0 ≤ m1) (h2 : 0 ≤ m2)
    (h : formatKey f1 m1 z1 = formatKey f2 m2 z2) :
    f1 = f2 ∧ m1 = m2 ∧ z1 = z2 :=
  formatKey_inj_nonneg h1 h2 h

/-- Witness for the amended C5 at concrete non-negative inputs. -/
theorem C5_formatKey_inj_nonneg_witness :
    (0 : ℤ) ≤ 2000000 ∧ (0 : ℤ) ≤ 2000000 ∧
    formatKey ['a'] 2000000 false = formatKey ['a'] 2000000 false ∧
    ((['a'] : Key) = ['a'] ∧ (2000000 : ℤ) = 2000000 ∧ false = false) :=
  ⟨by decide, by decide, rfl,
    C5_formatKey_inj_nonneg ['a'] ['a'] 2000000 2000000 false false
      (by decide) (by decide) rfl⟩

/-- C6: `formatKey` renders the fractional component with exactly six
decimal digits, appends the fixed suffix `-z` exactly when `hasZoom` is
true, and therefore the zoomed and unzoomed keys always differ. -/
theorem C6_zoom_suffix (f : Key) (m : ℤ) :
    formatKey f m true = formatKey f m false ++ ['-', 'z'] ∧
    (∃ pre, formatKey f m false = pre ++ '.' :: pad6 (m.natAbs % 1000000) ∧
      (pad6 (m.natAbs % 1000000)).length = 6) ∧
    formatKey f m false ≠ formatKey f m true := by
  refine ⟨?_, ?_, ?_⟩
  · simp [formatKey]
  · refine ⟨f ++ ['-'] ++ ((if m < 0 then ['-'] else []) ++
      natChars (m.natAbs / 1000000)), ?_,
      length_pad6 (Nat.mod_lt _ (by norm_num))⟩
    simp [formatKey, fixed6, List.append_assoc]
  · intro h
    have hlen := congrArg List.length h
    simp [formatKey] at hlen

/-- C7: `getFrame` never changes the cache state: the state it returns is
the input state, entries and recency ordering included, found or not. -/
theorem C7_lookup_pure (l : List FrameInfo) (k : Key) :
    (getFrame l k).2 = l := rfl

/-- C8: looking up a key not present in the cache returns the not-found
sentinel (`none`, the C++ `nullptr`), a normal outcome rather than a
fault. -/
theorem C8_miss_returns_none (l : List FrameInfo) (k : Key)
    (h : k ∉ cacheKeys l) : (getFrame l k).1 = none := by
  show l.find? (fun f => f.key == k) = none
  apply List.find?_eq_none.mpr
  intro x hx hb
  exact h (List.mem_map.mpr ⟨x, hx, beq_iff_eq.mp hb⟩)

/-- Witness for C8 at a concrete cache and missing key. -/
theorem C8_miss_returns_none_witness :
    (['q'] : Key) ∉ cacheKeys [sampleFrame] ∧
    (getFrame [sampleFrame] ['q']).1 = none :=
  ⟨by decide, C8_miss_returns_none [sampleFrame] ['q'] (by decide)⟩

/-- C9: the `FrameInfo` constructor takes an integer frame number and
computes the key with the zoom flag false; the frame number it stores has
zero fractional part, and no constructed key ever equals a zoom-suffixed
key. -/
theorem C9_construct_key (n : ℤ) (file : Key) :
    (FrameInfo.construct n file).key = formatKey file (1000000 * n) false ∧
    (1000000 * n) % 1000000 = 0 ∧
    ∀ (g : Key) (m : ℤ),
      (FrameInfo.construct n file).key ≠ formatKey g m true := by
  refine ⟨rfl, Int.mul_emod_right 1000000 n, ?_⟩
  intro g m h
  obtain ⟨c, hc, hlast⟩ := formatKey_getLast_false file (1000000 * n)
  have hkey : (FrameInfo.construct n file).key =
      formatKey file (1000000 * n) false := rfl
  have h2 : formatKey file (1000000 * n) false = formatKey g m true := by
    rw [← hkey]
    exact h
  rw [h2, formatKey_getLast_true] at hlast
  exact isDigitC_ne_z hc (Option.some.inj hlast).symm

/-- C10: immediately after `addFrame frame`, `getFrame` on `frame`'s key
returns exactly the inserted descriptor (the same value, not an older
entry with the same key). -/
theorem C10_insert_then_lookup (l : List FrameInfo) (f : FrameInfo) :
    (getFrame (addFrame f l) f.key).1 = some f := by
  obtain ⟨t, ht⟩ := addFrame_cons f l
  show (addFrame f l).find? (fun g => g.key == f.key) = some f
  rw [ht]
  exact List.find?_cons_of_pos _ (by simp)
